import Mathlib

/-!
Verification of the dependency-graph engine of `py_smart_test`.

The Python sources under `src/py_smart_test/` are shallowly embedded:
pure functions become Lean functions, Python `dict`s become insertion-ordered
association lists (`Dict`), Python `set`s used only through membership and
final sorting become lists with membership-guarded insertion, and `ast.parse`
results are abstracted as a list of import statements (the only AST nodes
`ImportVisitor` inspects), with a distinguished `bad` constructor for files
whose text raises `SyntaxError`.

Python string primitives (`str.split`, `str.join`, slicing, `in`,
`endswith`, `sorted`) are re-implemented as structural recursions over
`String.data` so that every definition evaluates inside the kernel.
-/

/-! ### Python string primitives -/

/-- Character-list version of Python `s.split(sep)` for a one-character
separator: `"a.b".split(".") = ["a","b"]`, `"".split(".") = [""]`. -/
def splitCharList (sep : Char) : List Char → List (List Char)
  | [] => [[]]
  | c :: rest =>
    let r := splitCharList sep rest
    if c = sep then [] :: r
    else
      match r with
      | [] => [[c]]
      | h :: t => (c :: h) :: t

/-- Python `s.split(sep)` (single-character separator), on `String`. -/
def pySplit (sep : Char) (s : String) : List String :=
  (splitCharList sep s.data).map String.mk

/-- Python `sep.join(parts)` for a one-character separator. -/
def pyJoin (sep : Char) : List String → String
  | [] => ""
  | [x] => x
  | x :: y :: rest => x ++ String.singleton sep ++ pyJoin sep (y :: rest)

/-- Python slicing `s[:-n]`: all but the last `n` characters (empty when
`n ≥ len(s)`). -/
def pyDropRight (s : String) (n : Nat) : String :=
  String.mk (s.data.take (s.data.length - n))

/-- `listStarts pre l` is true when `pre` is an initial segment of `l`. -/
def listStarts : List Char → List Char → Bool
  | [], _ => true
  | _ :: _, [] => false
  | a :: as, b :: bs => a = b && listStarts as bs

/-- Python `sub in s` (substring containment). -/
def containsAt : List Char → List Char → Bool
  | sub, [] => sub.isEmpty
  | sub, c :: rest => listStarts sub (c :: rest) || containsAt sub rest

/-- Python `sub in s` on `String`. -/
def pyContains (sub s : String) : Bool :=
  containsAt sub.data s.data

/-- Python `s.endswith(suffix)`. -/
def pyEndsWith (suffix s : String) : Bool :=
  listStarts suffix.data.reverse s.data.reverse

/-- Python `<=` on strings: lexicographic comparison by code point. -/
def charListLe : List Char → List Char → Bool
  | [], _ => true
  | _ :: _, [] => false
  | a :: as, b :: bs => if a = b then charListLe as bs else Nat.blt a.toNat b.toNat

/-- Python `<=` on `String`. -/
def pyLe (a b : String) : Bool :=
  charListLe a.data b.data

/-- Stable insertion into a `pyLe`-sorted list. -/
def insertSorted (x : String) : List String → List String
  | [] => [x]
  | y :: ys => if pyLe x y then x :: y :: ys else y :: insertSorted x ys

/-- Python `sorted(l)` for lists of strings. -/
def pySort (l : List String) : List String :=
  l.foldr insertSorted []

/-- `list(set(l))` keeping first occurrences: the set's iteration order is
irrelevant here because every use is followed by `sorted`. -/
def pyDedup : List String → List String :=
  go []
where
  go (seen : List String) : List String → List String
    | [] => []
    | x :: xs => if seen.contains x then go seen xs else x :: go (x :: seen) xs

/-- Python `sorted(list(set(l)))`, the normal form in which the graph
builder stores import lists. -/
def sortedDedup (l : List String) : List String :=
  pySort (pyDedup l)

/-! ### Insertion-ordered dictionaries (Python `dict`) -/

/-- A Python `dict` with `String` keys: an insertion-ordered association
list.  All dictionaries built by the embedded code have `Nodup` keys. -/
abbrev Dict (α : Type) := List (String × α)

/-- `d[k]` / `d.get(k)`: first value stored under `k`. -/
def dlookup {α : Type} : Dict α → String → Option α
  | [], _ => none
  | (k', v) :: rest, k => if k' = k then some v else dlookup rest k

/-- `d[k] = v`: replace in place when the key exists (Python dicts keep the
original insertion position), append otherwise. -/
def dinsert {α : Type} (d : Dict α) (k : String) (v : α) : Dict α :=
  if (dlookup d k).isSome then
    d.map (fun p => if p.1 = k then (k, v) else p)
  else
    d ++ [(k, v)]

/-- `list(d.keys())`. -/
def dkeys {α : Type} (d : Dict α) : List String :=
  d.map Prod.fst

/-! ### Import resolver (`generate_dependency_graph.py`, `ImportVisitor`) -/

/-- The only AST nodes `ImportVisitor` inspects: `import a, b` statements
(`visit_Import` reads each alias name) and `from ... import ...` statements
(`visit_ImportFrom` reads only the statement's level and module). -/
inductive PyStmt : Type
  | importNames (names : List String)
  | importFrom (level : Nat) (module : Option String)
deriving DecidableEq

/-- A Python source text, abstracted to what `ast.parse` + `ImportVisitor`
extract from it: either a parsable sequence of import statements, or a text
that raises `SyntaxError`. -/
inductive Content : Type
  | ok (stmts : List PyStmt)
  | bad
deriving DecidableEq

/-- `ImportVisitor._resolve_relative`: resolve a level-`L` relative import
against the current module's dotted name (`parts[:-level]`, then join). -/
def resolve_relative (currentModule : String) (level : Nat) (module : Option String) :
    Option String :=
  let parts := pySplit '.' currentModule
  if parts.length < level then none
  else
    let base_parts := if level = 0 then [] else parts.take (parts.length - level)
    let base_module := pyJoin '.' base_parts
    match module with
    | some m =>
      if m ≠ "" then
        if base_module ≠ "" then some (base_module ++ "." ++ m) else some m
      else some base_module
    | none => some base_module

/-- `set.add` on the visitor's import set, modelled as membership-guarded
append (only membership and a final `sorted` are ever used). -/
def addImport (imports : List String) (x : String) : List String :=
  if imports.contains x then imports else imports ++ [x]

/-- One visitor step: `visit_Import` adds every alias name;
`visit_ImportFrom` adds the module of an absolute import when truthy, and
the resolved name of a relative import when resolution yields a truthy
string (`if resolved:` drops both `None` and `""`). -/
def visitStmt (currentModule : String) (imports : List String) : PyStmt → List String
  | .importNames names => names.foldl addImport imports
  | .importFrom level module =>
    if level = 0 then
      match module with
      | some m => if m ≠ "" then addImport imports m else imports
      | none => imports
    else
      match resolve_relative currentModule level module with
      | some r => if r ≠ "" then addImport imports r else imports
      | none => imports

/-- The dotted names tested by the parent-match loop
`for i in range(len(parts), 0, -1): ".".join(parts[:i])`, longest first. -/
def dottedParents (imp : String) : List String :=
  let parts := pySplit '.' imp
  (List.range parts.length).reverse.map (fun i => pyJoin '.' (parts.take (i + 1)))

/-- Filtering of raw import candidates against the module universe: keep an
exact match, else the longest dotted parent found in the universe, else
drop the candidate. -/
def resolveImports (valid : List String) (imps : List String) : List String :=
  imps.foldl
    (fun acc imp =>
      if valid.contains imp then acc ++ [imp]
      else
        match (dottedParents imp).find? (fun sub => valid.contains sub) with
        | some sub => acc ++ [sub]
        | none => acc)
    []

/-- `get_module_name`: dotted module name from the path parts relative to
the source root (`__init__.py` collapses to the parent directory, other
names lose their last three characters, i.e. `.py`). -/
def get_module_name (relParts : List String) : String :=
  let parts :=
    if relParts.getLast? = some "__init__.py" then relParts.dropLast
    else relParts.dropLast ++ [pyDropRight ((relParts.getLast?).getD "") 3]
  pyJoin '.' parts

/-- Parse one file's content and produce its stored import list: `none` on
`SyntaxError`, otherwise the sorted deduplicated resolved imports.  This is
the block duplicated verbatim in `_parse_files_sequential`,
`_parse_files_incremental` and `_parse_file_worker`. -/
def parseResolve (valid : List String) (modName : String) : Content → Option (List String)
  | .bad => none
  | .ok stmts => some (sortedDedup (resolveImports valid (stmts.foldl (visitStmt modName) [])))

/-! ### Dependency graph builder (`generate_dependency_graph.py`) -/

/-- A source file as the graph builder sees it: its path parts relative to
the source root, its repo-relative posix path, and its text. -/
structure SrcFile : Type where
  relParts : List String
  relPath : String
  content : Content
deriving DecidableEq

/-- `compute_file_hash` (MD5 of the file bytes) modelled as an injective
fingerprint of the content: MD5 is collision-resistant enough that the code
treats equal hashes as equal contents, so the model's hash type is the
content itself. -/
def compute_file_hash (c : Content) : Content := c

/-- Whether `ast.parse` succeeds on the file's text. -/
def SrcFile.parses (f : SrcFile) : Bool :=
  match f.content with
  | .ok _ => true
  | .bad => false

/-- Value stored per module in `modules_map` before inversion. -/
structure ModuleData : Type where
  imports : List String
  file : String
deriving DecidableEq

/-- One entry of `ast_parse_cache.json`. -/
structure CacheEntry : Type where
  hash : Content
  module_name : String
  imports : List String
  timestamp : Nat
deriving DecidableEq

/-- Loop body of `_parse_files_sequential`. -/
def seqStep (valid : List String) (m : Dict ModuleData) (f : SrcFile) : Dict ModuleData :=
  let modName := get_module_name f.relParts
  match parseResolve valid modName f.content with
  | none => m
  | some imps => dinsert m modName ⟨imps, f.relPath⟩

/-- `_parse_files_sequential`. -/
def parse_files_sequential (files : List SrcFile) (valid : List String) : Dict ModuleData :=
  files.foldl (seqStep valid) []

/-- Loop body of `_parse_files_incremental`: attempt a cache hit (file not
in the supplied changed set, entry present, stored hash equal to the
current hash, stored module name equal to the computed one), else re-parse
and, on success, write a fresh cache entry. -/
def incrementalStep (valid : List String) (changed : Option (List String)) (now : Nat)
    (acc : Dict ModuleData × Dict CacheEntry) (f : SrcFile) :
    Dict ModuleData × Dict CacheEntry :=
  let m := acc.1
  let cache := acc.2
  let modName := get_module_name f.relParts
  let currentHash := compute_file_hash f.content
  let hit : Option CacheEntry :=
    if changed.all (fun s => !s.contains f.relPath) then
      match dlookup cache f.relPath with
      | some e =>
        if e.hash = currentHash ∧ e.module_name = modName then some e else none
      | none => none
    else none
  match hit with
  | some e => (dinsert m modName ⟨e.imports, f.relPath⟩, cache)
  | none =>
    match parseResolve valid modName f.content with
    | none => (m, cache)
    | some resolved =>
      (dinsert m modName ⟨resolved, f.relPath⟩,
       dinsert cache f.relPath ⟨currentHash, modName, resolved, now⟩)

/-- `_parse_files_incremental` (`changed = none` models
`changed_files=None`; `now` models `int(time.time())`). -/
def parse_files_incremental (files : List SrcFile) (valid : List String)
    (cache : Dict CacheEntry) (changed : Option (List String)) (now : Nat) :
    Dict ModuleData × Dict CacheEntry :=
  files.foldl (incrementalStep valid changed now) ([], cache)

/-- One node of the persisted graph (`tests` is written later by the
test-module mapper; `.get("tests", [])` makes an absent list empty). -/
structure GraphModule : Type where
  imports : List String
  file : String
  imported_by : List String
  tests : List String
deriving DecidableEq

/-- `modules_map[dep]["imported_by"].append(mod)`. -/
def appendImportedBy (g : Dict GraphModule) (dep a : String) : Dict GraphModule :=
  g.map (fun p =>
    if p.1 = dep then (p.1, { p.2 with imported_by := p.2.imported_by ++ [a] }) else p)

/-- The inversion pass of `scan_and_build_graph`: reset every
`imported_by` to `[]`, then for every module `mod` and every `dep` in
its imports with `dep` a key of the map, append `mod` to `dep`'s own
`imported_by`. -/
def invertGraph (m : Dict ModuleData) : Dict GraphModule :=
  let g0 : Dict GraphModule := m.map (fun p => (p.1, ⟨p.2.imports, p.2.file, [], []⟩))
  m.foldl
    (fun g p =>
      p.2.imports.foldl
        (fun g dep => if (dlookup m dep).isSome then appendImportedBy g dep p.1 else g)
        g)
    g0

/-- The modules the inversion pass appends to `x`'s `imported_by` list,
in map order: one occurrence of `p.1` for every occurrence of `x` in
`p.2.imports`. -/
def ibContrib (m : Dict ModuleData) (x : String) : List String :=
  m.foldr
    (fun p acc => (p.2.imports.filter (fun dep => dep == x)).map (fun _ => p.1) ++ acc)
    []

/-- `scan_and_build_graph`: build the module universe from every file,
parse (incrementally when `use_cache` is set, sequentially otherwise) and
invert.  The remote-cache pre-sync only seeds `cache` and is not modelled
separately. -/
def scan_and_build_graph (files : List SrcFile) (use_cache : Bool)
    (cache : Dict CacheEntry) (changed : Option (List String)) (now : Nat) :
    Dict GraphModule :=
  let valid := files.map (fun f => get_module_name f.relParts)
  let mm :=
    if use_cache then (parse_files_incremental files valid cache changed now).1
    else parse_files_sequential files valid
  invertGraph mm

/-! ### Transitive dependents (`find_affected_modules.py`) -/

/-- Every name occurring in some `imported_by` list of the graph: the only
names BFS can ever add beyond its starting set. -/
def ibMentions (graph : Dict GraphModule) : List String :=
  graph.foldr (fun p acc => p.2.imported_by ++ acc) []

/-- Number of elements of `l` not yet in `visited` (BFS termination
measure; counts duplicates, which only helps). -/
def countNotIn (visited l : List String) : Nat :=
  (l.filter (fun x => !visited.contains x)).length

/-- Inner loop of `get_transitive_dependents`: for each dependent not yet
visited, mark it visited, add it to the affected set and enqueue it. -/
def bfsVisit (visited affected queue : List String) :
    List String → List String × List String × List String
  | [] => (visited, affected, queue)
  | dep :: deps =>
    if visited.contains dep then bfsVisit visited affected queue deps
    else bfsVisit (visited ++ [dep]) (affected ++ [dep]) (queue ++ [dep]) deps

/-- `get_transitive_dependents`' BFS loop (`while queue:`). -/
def bfsAux (graph : Dict GraphModule) :
    List String → List String → List String → List String
  | [], _, affected => affected
  | current :: rest, visited, affected =>
    match hcur : dlookup graph current with
    | none => bfsAux graph rest visited affected
    | some gm =>
      let r := bfsVisit visited affected rest gm.imported_by
      bfsAux graph r.2.2 r.1 r.2.1
termination_by q v _ => countNotIn v (ibMentions graph) + q.length
decreasing_by
  · simp only [List.length_cons]
    omega
  · -- self-contained termination argument (helper lemmas are inlined so that
    -- every `theorem` of this file can come after every `def`)
    have hconsCount : ∀ (v : List String) (x : String) (M : List String),
        countNotIn v (x :: M) = (if x ∈ v then 0 else 1) + countNotIn v M := by
      intro v x M
      simp only [countNotIn, List.filter_cons]
      by_cases hx : x ∈ v
      · simp [hx]
      · simp [hx]
        omega
    have hle : ∀ (M v : List String) (d : String),
        countNotIn (v ++ [d]) M ≤ countNotIn v M := by
      intro M
      induction M with
      | nil => intro v d; simp [countNotIn]
      | cons x M' ih =>
        intro v d
        rw [hconsCount, hconsCount]
        have hind : (if x ∈ v ++ [d] then 0 else 1) ≤ (if x ∈ v then (0 : Nat) else 1) := by
          by_cases hx : x ∈ v
          · simp [hx, List.mem_append_left]
          · by_cases hx' : x ∈ v ++ [d] <;> simp [hx, hx']
        have := ih v d
        omega
    have hlt : ∀ (M v : List String) (d : String), d ∈ M → d ∉ v →
        countNotIn (v ++ [d]) M + 1 ≤ countNotIn v M := by
      intro M
      induction M with
      | nil => intro v d hdM; simp at hdM
      | cons x M' ih =>
        intro v d hdM hdv
        rw [hconsCount, hconsCount]
        rcases List.mem_cons.1 hdM with h1 | h1
        · subst h1
          rw [if_pos (List.mem_append_right _ (List.mem_singleton.2 rfl)), if_neg hdv]
          have := hle M' v d
          omega
        · have htail := ih v d h1 hdv
          have hind : (if x ∈ v ++ [d] then 0 else 1) ≤ (if x ∈ v then (0 : Nat) else 1) := by
            by_cases hx : x ∈ v
            · simp [hx, List.mem_append_left]
            · by_cases hx' : x ∈ v ++ [d] <;> simp [hx, hx']
          omega
    have hvisit : ∀ (M deps v a q : List String), (∀ d ∈ deps, d ∈ M) →
        countNotIn (bfsVisit v a q deps).1 M + (bfsVisit v a q deps).2.2.length ≤
          countNotIn v M + q.length := by
      intro M deps
      induction deps with
      | nil => intro v a q _; simp [bfsVisit]
      | cons dep deps ih =>
        intro v a q hM
        simp only [bfsVisit]
        by_cases hc : v.contains dep = true
        · simp only [hc, if_true]
          exact ih v a q (fun d hd => hM d (List.mem_cons_of_mem _ hd))
        · simp only [hc, Bool.false_eq_true, if_false]
          have h1 := ih (v ++ [dep]) (a ++ [dep]) (q ++ [dep])
            (fun d hd => hM d (List.mem_cons_of_mem _ hd))
          have h2 := hlt M v dep (hM dep (List.mem_cons_self _ _)) (by simpa using hc)
          simp only [List.length_append, List.length_cons, List.length_nil] at h1 ⊢
          omega
    have hgmem : (current, gm) ∈ graph := by
      clear hvisit hlt hle hconsCount
      revert hcur
      induction graph with
      | nil => intro hcur; simp [dlookup] at hcur
      | cons p rest ih =>
        intro hcur
        obtain ⟨k', v'⟩ := p
        by_cases hk : k' = current
        · subst hk
          simp [dlookup] at hcur
          simp [hcur]
        · simp only [dlookup, if_neg hk] at hcur
          simp [ih hcur]
    have hmem : ∀ d ∈ gm.imported_by, d ∈ ibMentions graph := by
      intro d hd
      clear hvisit hlt hle hconsCount hcur
      induction graph with
      | nil => simp at hgmem
      | cons p rest ih =>
        simp only [ibMentions, List.foldr] at ih ⊢
        rcases List.mem_cons.1 hgmem with h1 | h1
        · subst h1
          exact List.mem_append_left _ hd
        · exact List.mem_append_right _ (ih h1)
    have := hvisit (ibMentions graph) gm.imported_by visited affected rest hmem
    simp only [List.length_cons]
    omega

/-- `get_transitive_dependents`: BFS over `imported_by` edges starting from
`modules` (`affected`, `queue` and `visited` all start as the given set). -/
def get_transitive_dependents (graph : Dict GraphModule) (modules : List String) :
    List String :=
  bfsAux graph modules modules modules

/-! ### Staleness detector (`detect_graph_staleness.py`) -/

/-- `is_graph_stale`, with the file system abstracted: `graphExists` is
`graph_file.exists()`, `hashFile` is the parsed content of
`file_hashes.json` (`none` when missing or unreadable — `load_hashes`
returns `{}` then), `current` is `get_current_hashes()`. -/
def is_graph_stale (graphExists : Bool) (hashFile : Option (Dict String))
    (current : Dict String) : Bool :=
  if !graphExists then true
  else
    let stored := hashFile.getD []
    if stored.isEmpty then true
    else if current.any (fun pc =>
        match dlookup stored pc.1 with
        | none => true
        | some h => h != pc.2) then true
    else if stored.any (fun ps => (dlookup current ps.1).isNone) then true
    else false

/-! ### Affected-set resolver (`find_affected_modules.py`, `get_affected_tests`) -/

/-- `(REPO_ROOT / p).relative_to(SRC_ROOT)` for a repo-relative posix path
under the standard `src` layout: the parts after a leading `src`
component, `none` when `relative_to` raises `ValueError`. -/
def relToSrc (p : String) : Option (List String) :=
  match pySplit '/' p with
  | "src" :: rest => if rest.isEmpty then none else some rest
  | _ => none

/-- The module-name candidate of a changed source path inside
`get_affected_tests`' loop: when the file still exists, the name computed
from the path relative to the source root (`none` when `relative_to`
raises `ValueError`, caught by the outer `except`); when it was deleted,
the name inferred from the path alone (strip `src/`, collapse
`__init__.py`, strip `.py`; `none` when the inner `except` fires or the
path does not start with `src`). -/
def derivedSrcModule (fsExists : String → Bool) (p : String) : Option String :=
  if fsExists p then (relToSrc p).map get_module_name
  else
    match pySplit '/' p with
    | "src" :: relParts =>
      match relParts.getLast? with
      | none => none
      | some last =>
        some (pyJoin '.'
          (if last = "__init__.py" then relParts.dropLast
           else relParts.dropLast ++ [pyDropRight last 3]))
    | _ => none

/-- Loop body of `get_affected_tests` over one changed file: source-tree
`.py` paths contribute their module-name candidate when it is a graph
node, test-tree `.py` paths contribute themselves, anything else
contributes nothing.  Exceptions are caught by the surrounding
`try`/`except` blocks and skip only this item. -/
def processChangedFile (valid : List String) (fsExists : String → Bool) (p : String) :
    List String × List String :=
  if pyContains "src/" p && pyEndsWith ".py" p then
    match derivedSrcModule fsExists p with
    | some modName => if valid.contains modName then ([modName], []) else ([], [])
    | none => ([], [])
  else if pyContains "tests/" p && pyEndsWith ".py" p then ([], [p])
  else ([], [])

/-- `get_affected_tests`, from the changed-file list onward: `graphFile`
is the parsed dependency graph (`none` when the file is missing, which
returns empty lists), `fsExists` abstracts `(REPO_ROOT / p).exists()`.
Returns `(affected_modules, tests)`, both sorted. -/
def get_affected_tests (graphFile : Option (Dict GraphModule))
    (fsExists : String → Bool) (changed_files : List String) :
    List String × List String :=
  match graphFile with
  | none => ([], [])
  | some graph =>
    let valid := dkeys graph
    let acc := changed_files.foldl
      (fun acc p =>
        let c := processChangedFile valid fsExists p
        (acc.1 ++ c.1, acc.2 ++ c.2))
      ([], [])
    let all_affected := get_transitive_dependents graph acc.1
    let tests := acc.2 ++ all_affected.foldr
      (fun m acc2 =>
        (match dlookup graph m with
         | some gm => gm.tests
         | none => []) ++ acc2)
      []
    (sortedDedup all_affected, sortedDedup tests)

/-! ## Theorems -/

/-! #### Dictionary lemmas -/

theorem dlookup_eq_none {α : Type} (d : Dict α) (k : String) :
    dlookup d k = none ↔ k ∉ dkeys d := by
  induction d with
  | nil => simp [dlookup, dkeys]
  | cons p rest ih =>
    obtain ⟨k', v⟩ := p
    simp only [dlookup, dkeys, List.map_cons, List.mem_cons]
    by_cases h : k' = k
    · subst h
      simp
    · rw [if_neg h, ih]
      constructor
      · intro hk hor
        rcases hor with h1 | h1
        · exact h h1.symm
        · exact hk h1
      · intro hk h1
        exact hk (Or.inr h1)

theorem dlookup_isSome_iff {α : Type} (d : Dict α) (k : String) :
    (dlookup d k).isSome = true ↔ k ∈ dkeys d := by
  rw [Option.isSome_iff_ne_none]
  constructor
  · intro h
    by_contra hmem
    exact h ((dlookup_eq_none d k).2 hmem)
  · intro h hnone
    exact absurd ((dlookup_eq_none d k).1 hnone) (by simp [h])

theorem dlookup_mem {α : Type} {d : Dict α} {k : String} {v : α}
    (h : dlookup d k = some v) : (k, v) ∈ d := by
  induction d with
  | nil => simp [dlookup] at h
  | cons p rest ih =>
    obtain ⟨k', v'⟩ := p
    by_cases hk : k' = k
    · subst hk
      simp [dlookup] at h
      simp [h]
    · simp [dlookup, hk] at h
      simp [ih h]

theorem mem_dlookup {α : Type} {d : Dict α} {k : String} {v : α}
    (hnd : (dkeys d).Nodup) (h : (k, v) ∈ d) : dlookup d k = some v := by
  induction d with
  | nil => simp at h
  | cons p rest ih =>
    obtain ⟨k', v'⟩ := p
    rw [dkeys, List.map_cons, List.nodup_cons] at hnd
    rcases List.mem_cons.1 h with h1 | h1
    · rw [Prod.mk.injEq] at h1
      obtain ⟨rfl, rfl⟩ := h1
      simp [dlookup]
    · have hk : k' ≠ k := by
        intro he
        subst he
        exact hnd.1 (List.mem_map.2 ⟨(k', v), h1, rfl⟩)
      simp only [dlookup, if_neg hk]
      exact ih hnd.2 h1

theorem dkeys_mapUpdate {α : Type} (d : Dict α) (k : String) (v : α) :
    dkeys (d.map (fun p => if p.1 = k then (k, v) else p)) = dkeys d := by
  induction d with
  | nil => rfl
  | cons p rest ih =>
    simp only [dkeys, List.map_cons] at ih ⊢
    by_cases hp : p.1 = k
    · simp [hp, ih]
    · simp [hp, ih]

theorem dkeys_dinsert {α : Type} (d : Dict α) (k : String) (v : α) :
    dkeys (dinsert d k v) = if k ∈ dkeys d then dkeys d else dkeys d ++ [k] := by
  unfold dinsert
  by_cases h : (dlookup d k).isSome = true
  · rw [if_pos h, if_pos ((dlookup_isSome_iff d k).1 h), dkeys_mapUpdate]
  · rw [if_neg h, if_neg (fun hm => h ((dlookup_isSome_iff d k).2 hm))]
    simp [dkeys]

theorem dkeys_dinsert_nodup {α : Type} (d : Dict α) (k : String) (v : α)
    (h : (dkeys d).Nodup) : (dkeys (dinsert d k v)).Nodup := by
  rw [dkeys_dinsert]
  by_cases hm : k ∈ dkeys d
  · simpa [hm]
  · simp [hm, List.nodup_append, h]

theorem mem_dkeys_dinsert {α : Type} (d : Dict α) (k k' : String) (v : α) :
    k' ∈ dkeys (dinsert d k v) ↔ k' ∈ dkeys d ∨ k' = k := by
  rw [dkeys_dinsert]
  by_cases hm : k ∈ dkeys d
  · simp [hm]
    intro he; subst he; exact hm
  · simp [hm]

theorem dlookup_mapUpdate_self {α : Type} (d : Dict α) (k : String) (v : α)
    (h : (dlookup d k).isSome = true) :
    dlookup (d.map (fun p => if p.1 = k then (k, v) else p)) k = some v := by
  induction d with
  | nil => simp [dlookup] at h
  | cons p rest ih =>
    obtain ⟨k₀, v₀⟩ := p
    simp only [List.map_cons]
    by_cases hk : k₀ = k
    · rw [if_pos (show (k₀, v₀).1 = k from hk)]
      simp [dlookup]
    · rw [if_neg (show ¬(k₀, v₀).1 = k from hk)]
      simp only [dlookup, if_neg hk] at h
      simp only [dlookup]
      rw [if_neg hk]
      exact ih h

theorem dlookup_mapUpdate_ne {α : Type} (d : Dict α) (k k' : String) (v : α)
    (h : k' ≠ k) :
    dlookup (d.map (fun p => if p.1 = k then (k, v) else p)) k' = dlookup d k' := by
  induction d with
  | nil => simp
  | cons p rest ih =>
    obtain ⟨k₀, v₀⟩ := p
    simp only [List.map_cons]
    by_cases hk : k₀ = k
    · rw [if_pos (show (k₀, v₀).1 = k from hk)]
      simp only [dlookup]
      rw [if_neg (fun he => h he.symm), if_neg (fun he => h (hk ▸ he).symm)]
      exact ih
    · rw [if_neg (show ¬(k₀, v₀).1 = k from hk)]
      simp only [dlookup]
      by_cases hk' : k₀ = k'
      · rw [if_pos hk', if_pos hk']
      · rw [if_neg hk', if_neg hk']
        exact ih

theorem dlookup_dinsert_self {α : Type} (d : Dict α) (k : String) (v : α) :
    dlookup (dinsert d k v) k = some v := by
  unfold dinsert
  by_cases h : (dlookup d k).isSome = true
  · rw [if_pos h]
    exact dlookup_mapUpdate_self d k v h
  · rw [if_neg h]
    induction d with
    | nil => simp [dlookup]
    | cons p rest ih =>
      obtain ⟨k', v'⟩ := p
      by_cases hk : k' = k
      · simp [dlookup, hk] at h
      · simp only [dlookup, if_neg hk] at h
        simp only [List.cons_append, dlookup, if_neg hk]
        exact ih h

theorem dlookup_dinsert_ne {α : Type} (d : Dict α) (k k' : String) (v : α)
    (h : k' ≠ k) : dlookup (dinsert d k v) k' = dlookup d k' := by
  unfold dinsert
  by_cases hs : (dlookup d k).isSome = true
  · rw [if_pos hs]
    exact dlookup_mapUpdate_ne d k k' v h
  · rw [if_neg hs]
    induction d with
    | nil =>
      simp only [List.nil_append, dlookup]
      rw [if_neg (Ne.symm h)]
    | cons p rest ih =>
      obtain ⟨k₀, v₀⟩ := p
      have hs' : ¬(dlookup rest k).isSome = true := by
        intro hr
        apply hs
        simp only [dlookup]
        by_cases hk0 : k₀ = k
        · simp [hk0]
        · simp [hk0, hr]
      by_cases hk : k₀ = k'
      · simp [dlookup, hk]
      · simp only [List.cons_append, dlookup, if_neg hk]
        exact ih hs'

theorem countNotIn_cons (visited : List String) (x : String) (M : List String) :
    countNotIn visited (x :: M) =
      (if x ∈ visited then 0 else 1) + countNotIn visited M := by
  simp only [countNotIn, List.filter_cons]
  by_cases hx : x ∈ visited
  · simp [hx]
  · simp [hx]
    omega

theorem countNotIn_append_le (visited M : List String) (d : String) :
    countNotIn (visited ++ [d]) M ≤ countNotIn visited M := by
  induction M with
  | nil => simp [countNotIn]
  | cons x M' ih =>
    rw [countNotIn_cons, countNotIn_cons]
    have hind : (if x ∈ visited ++ [d] then 0 else 1) ≤ (if x ∈ visited then (0 : Nat) else 1) := by
      by_cases hx : x ∈ visited
      · simp [hx, List.mem_append_left]
      · by_cases hx' : x ∈ visited ++ [d] <;> simp [hx, hx']
    omega

theorem countNotIn_append_lt (visited M : List String) (d : String)
    (hdM : d ∈ M) (hdv : d ∉ visited) :
    countNotIn (visited ++ [d]) M + 1 ≤ countNotIn visited M := by
  induction M with
  | nil => simp at hdM
  | cons x M' ih =>
    rw [countNotIn_cons, countNotIn_cons]
    rcases List.mem_cons.1 hdM with h1 | h1
    · subst h1
      rw [if_pos (List.mem_append_right _ (List.mem_singleton.2 rfl)), if_neg hdv]
      have := countNotIn_append_le visited M' d
      omega
    · have htail := ih h1
      have hind : (if x ∈ visited ++ [d] then 0 else 1) ≤ (if x ∈ visited then (0 : Nat) else 1) := by
        by_cases hx : x ∈ visited
        · simp [hx, List.mem_append_left]
        · by_cases hx' : x ∈ visited ++ [d] <;> simp [hx, hx']
      omega

theorem bfsVisit_measure (M : List String) (deps visited affected queue : List String)
    (hM : ∀ d ∈ deps, d ∈ M) :
    countNotIn (bfsVisit visited affected queue deps).1 M +
      (bfsVisit visited affected queue deps).2.2.length ≤
    countNotIn visited M + queue.length := by
  induction deps generalizing visited affected queue with
  | nil => simp [bfsVisit]
  | cons dep deps ih =>
    simp only [bfsVisit]
    by_cases hc : visited.contains dep = true
    · simp only [hc, if_true]
      exact ih visited affected queue (fun d hd => hM d (List.mem_cons_of_mem _ hd))
    · simp only [hc, Bool.false_eq_true, if_false]
      have h1 := ih (visited ++ [dep]) (affected ++ [dep]) (queue ++ [dep])
        (fun d hd => hM d (List.mem_cons_of_mem _ hd))
      have h2 := countNotIn_append_lt visited M dep (hM dep (List.mem_cons_self _ _))
        (by simpa using hc)
      simp only [List.length_append, List.length_cons, List.length_nil] at h1 ⊢
      omega

theorem mem_ibMentions {graph : Dict GraphModule} {k : String} {gm : GraphModule}
    (hg : (k, gm) ∈ graph) : ∀ d ∈ gm.imported_by, d ∈ ibMentions graph := by
  intro d hd
  induction graph with
  | nil => simp at hg
  | cons p rest ih =>
    simp only [ibMentions, List.foldr] at ih ⊢
    rcases List.mem_cons.1 hg with h1 | h1
    · subst h1
      exact List.mem_append_left _ hd
    · exact List.mem_append_right _ (ih h1)


/-! ### String helper lemmas -/

theorem pyDropRight_concat_py (base : String) : pyDropRight (base ++ ".py") 3 = base := by
  unfold pyDropRight
  have hdata : (base ++ ".py").data = base.data ++ ['.', 'p', 'y'] := by
    simp [String.data_append]
  rw [hdata]
  simp [List.take_left]

theorem append_py_inj {a b : String} (h : a ++ ".py" = b ++ ".py") : a = b := by
  have h2 := congrArg (fun s => pyDropRight s 3) h
  simpa [pyDropRight_concat_py] using h2

/-! ### Claim theorems -/

/-- C7: module naming is a deterministic function of the path parts
relative to the source root: a filename `base ++ ".py"` (other than
`__init__.py`) contributes `base` as the final dotted component, an
`__init__.py` filename collapses to the parent directory's dotted name,
and a bare `__init__.py` at the root maps to the empty string. -/
theorem C7_module_naming :
    (∀ (dirs : List String) (base : String), base ≠ "__init__" →
      get_module_name (dirs ++ [base ++ ".py"]) = pyJoin '.' (dirs ++ [base])) ∧
    (∀ dirs : List String,
      get_module_name (dirs ++ ["__init__.py"]) = pyJoin '.' dirs) ∧
    get_module_name ["__init__.py"] = "" := by
  refine ⟨?_, ?_, ?_⟩
  · intro dirs base hbase
    unfold get_module_name
    rw [List.getLast?_concat]
    have hne : ¬(some (base ++ ".py") = some "__init__.py") := by
      intro hcon
      apply hbase
      apply append_py_inj
      rw [Option.some.injEq] at hcon
      rw [hcon]
      rfl
    rw [if_neg hne, List.dropLast_concat]
    simp only [Option.getD_some]
    rw [pyDropRight_concat_py]
  · intro dirs
    unfold get_module_name
    rw [List.getLast?_concat, if_pos rfl, List.dropLast_concat]
  · decide

/-- Witness for C7 at a concrete path: `pkg/sub.py` maps to `pkg.sub`. -/
theorem C7_witness :
    ("sub" : String) ≠ "__init__" ∧
    get_module_name (["pkg"] ++ ["sub" ++ ".py"]) = pyJoin '.' (["pkg"] ++ ["sub"]) :=
  ⟨by decide, C7_module_naming.1 ["pkg"] "sub" (by decide)⟩

/-- C5: relative-import resolution.  For module `pkg.sub.mod`, level 1 with
submodule `x` gives `pkg.sub.x` and level 1 without submodule gives
`pkg.sub`; a level exceeding the number of dotted components of the current
module yields `none` (and `visit_ImportFrom` then drops the candidate);
when the submodule is absent and dropping the last `L` components empties
the name, the resolved name is the empty string. -/
theorem C5_relative_resolution :
    resolve_relative "pkg.sub.mod" 1 (some "x") = some "pkg.sub.x" ∧
    resolve_relative "pkg.sub.mod" 1 none = some "pkg.sub" ∧
    (∀ (cm : String) (l : Nat) (m : Option String),
      (pySplit '.' cm).length < l → resolve_relative cm l m = none) ∧
    (resolve_relative "pkg" 2 (some "x") = none ∧
      visitStmt "pkg" [] (.importFrom 2 (some "x")) = []) ∧
    (∀ (cm : String) (l : Nat), 0 < l → (pySplit '.' cm).length = l →
      resolve_relative cm l none = some "") := by
  refine ⟨by decide, by decide, ?_, ⟨by decide, by decide⟩, ?_⟩
  · intro cm l m h
    unfold resolve_relative
    rw [if_pos h]
  · intro cm l hl hlen
    unfold resolve_relative
    rw [if_neg (by omega)]
    have h0 : ¬(l = 0) := by omega
    simp only [hlen, Nat.sub_self, List.take_zero, if_neg h0]
    rfl

/-- Witness for C5's quantified conjuncts at concrete inputs. -/
theorem C5_witness :
    resolve_relative "pkg" 3 (some "z") = none ∧
    resolve_relative "a.b" 2 none = some "" :=
  ⟨C5_relative_resolution.2.2.1 "pkg" 3 (some "z") (by decide),
   C5_relative_resolution.2.2.2.2 "a.b" 2 (by decide) (by decide)⟩

/-- C6 counterexample: with the graph file present, a fingerprint file
that exists but tracks zero files, and an empty current snapshot,
`is_graph_stale` returns `true` although the persisted snapshot is present
and differs from the current one in no added, modified or removed key
(the code treats an empty stored dict like a missing one). -/
theorem C6_counterexample :
    ¬(is_graph_stale true (some []) [] = true ↔
      (true = false ∨ (some ([] : Dict String)) = none ∨
        (∃ ph ∈ ([] : Dict String), dlookup ([] : Dict String) ph.1 = none) ∨
        (∃ ph ∈ ([] : Dict String),
          dlookup ([] : Dict String) ph.1 ≠ none ∧
          dlookup ([] : Dict String) ph.1 ≠ some ph.2) ∨
        (∃ ph ∈ ([] : Dict String), dlookup ([] : Dict String) ph.1 = none))) := by
  decide

/-- C6 (amended): `is_graph_stale` returns `true` iff the graph file is
missing, or the loaded fingerprint snapshot is missing or empty
(`load_hashes` returns `{}` for a missing file, and the code tests the
dict's truthiness), or some current path is absent from the stored
snapshot (added), or present with a different hash (modified), or some
stored path is absent from the current snapshot (removed). -/
theorem C6_is_graph_stale_iff (gex : Bool) (hashFile : Option (Dict String))
    (current : Dict String) :
    is_graph_stale gex hashFile current = true ↔
      (gex = false ∨ hashFile.getD [] = [] ∨
        (∃ ph ∈ current, dlookup (hashFile.getD []) ph.1 = none) ∨
        (∃ ph ∈ current, dlookup (hashFile.getD []) ph.1 ≠ none ∧
            dlookup (hashFile.getD []) ph.1 ≠ some ph.2) ∨
        (∃ ph ∈ hashFile.getD [], dlookup current ph.1 = none)) := by
  unfold is_graph_stale
  cases gex with
  | false => simp
  | true =>
    simp only [Bool.not_true, Bool.false_eq_true, if_false, Bool.true_eq_false,
      false_or]
    by_cases hemp : (hashFile.getD []).isEmpty = true
    · rw [if_pos hemp]
      simp [List.isEmpty_iff.1 hemp]
    · rw [if_neg hemp]
      have hne : ¬(hashFile.getD [] = []) := fun h => hemp (by simp [h])
      by_cases hadd : current.any (fun pc =>
          match dlookup (hashFile.getD []) pc.1 with
          | none => true
          | some h => h != pc.2) = true
      · rw [if_pos hadd]
        rw [List.any_eq_true] at hadd
        obtain ⟨ph, hmem, hph⟩ := hadd
        simp only [hne, false_or, true_iff]
        rcases hlk : dlookup (hashFile.getD []) ph.1 with _ | h
        · exact Or.inl ⟨ph, hmem, hlk⟩
        · rw [hlk] at hph
          simp only [bne_iff_ne, ne_eq] at hph
          refine Or.inr (Or.inl ⟨ph, hmem, by simp [hlk], ?_⟩)
          rw [hlk]
          simp
          exact hph
      · rw [if_neg hadd]
        by_cases hrem : (hashFile.getD []).any (fun ps => (dlookup current ps.1).isNone) = true
        · rw [if_pos hrem]
          rw [List.any_eq_true] at hrem
          obtain ⟨ps, hmem, hps⟩ := hrem
          simp only [hne, false_or, true_iff]
          exact Or.inr (Or.inr ⟨ps, hmem, Option.isNone_iff_eq_none.1 hps⟩)
        · rw [if_neg hrem]
          simp only [Bool.false_eq_true, false_iff]
          intro hor
          rcases hor with h | h | h | h
          · exact hne h
          · obtain ⟨ph, hmem, hph⟩ := h
            apply hadd
            rw [List.any_eq_true]
            exact ⟨ph, hmem, by rw [hph]⟩
          · obtain ⟨ph, hmem, hsome, hdiff⟩ := h
            apply hadd
            rw [List.any_eq_true]
            refine ⟨ph, hmem, ?_⟩
            rcases hlk : dlookup (hashFile.getD []) ph.1 with _ | hv
            · rfl
            · rw [hlk] at hdiff
              simp only [bne_iff_ne, ne_eq]
              intro heq
              exact hdiff (by rw [heq])
          · obtain ⟨ps, hmem, hps⟩ := h
            apply hrem
            rw [List.any_eq_true]
            exact ⟨ps, hmem, Option.isNone_iff_eq_none.2 hps⟩

/-! ### BFS lemmas -/

theorem bfsVisit_affected_mono :
    ∀ (deps visited affected queue : List String) (x : String), x ∈ affected →
      x ∈ (bfsVisit visited affected queue deps).2.1 := by
  intro deps
  induction deps with
  | nil => intro v a q x hx; simpa [bfsVisit] using hx
  | cons dep deps ih =>
    intro v a q x hx
    simp only [bfsVisit]
    by_cases hc : v.contains dep = true
    · simp only [hc, if_true]
      exact ih v a q x hx
    · simp only [hc, Bool.false_eq_true, if_false]
      exact ih _ _ _ x (List.mem_append_left _ hx)

theorem bfsVisit_affected_src :
    ∀ (deps visited affected queue : List String) (x : String),
      x ∈ (bfsVisit visited affected queue deps).2.1 → x ∈ affected ∨ x ∈ deps := by
  intro deps
  induction deps with
  | nil => intro v a q x hx; simp [bfsVisit] at hx; exact Or.inl hx
  | cons dep deps ih =>
    intro v a q x hx
    simp only [bfsVisit] at hx
    by_cases hc : v.contains dep = true
    · rw [if_pos hc] at hx
      rcases ih v a q x hx with h | h
      · exact Or.inl h
      · exact Or.inr (List.mem_cons_of_mem _ h)
    · rw [if_neg (by simpa using hc)] at hx
      rcases ih _ _ _ x hx with h | h
      · rcases List.mem_append.1 h with h1 | h1
        · exact Or.inl h1
        · exact Or.inr (List.mem_cons.2 (Or.inl (List.mem_singleton.1 h1)))
      · exact Or.inr (List.mem_cons_of_mem _ h)

theorem bfsAux_superset (graph : Dict GraphModule) :
    ∀ (queue visited affected : List String) (x : String), x ∈ affected →
      x ∈ bfsAux graph queue visited affected := by
  intro queue visited affected
  induction queue, visited, affected using bfsAux.induct graph with
  | case1 v a =>
    intro x hx
    simpa [bfsAux] using hx
  | case2 current rest v a hcur ih =>
    intro x hx
    rw [bfsAux, hcur]
    exact ih x hx
  | case3 current rest v a gm hcur r ih =>
    intro x hx
    rw [bfsAux, hcur]
    exact ih x (bfsVisit_affected_mono gm.imported_by v a rest x hx)

theorem bfsAux_src (graph : Dict GraphModule) :
    ∀ (queue visited affected : List String) (x : String),
      x ∈ bfsAux graph queue visited affected →
      x ∈ affected ∨ x ∈ ibMentions graph := by
  intro queue visited affected
  induction queue, visited, affected using bfsAux.induct graph with
  | case1 v a =>
    intro x hx
    rw [bfsAux] at hx
    exact Or.inl hx
  | case2 current rest v a hcur ih =>
    intro x hx
    rw [bfsAux, hcur] at hx
    exact ih x hx
  | case3 current rest v a gm hcur r ih =>
    intro x hx
    rw [bfsAux, hcur] at hx
    rcases ih x hx with h | h
    · rcases bfsVisit_affected_src gm.imported_by v a rest x h with h1 | h1
      · exact Or.inl h1
      · exact Or.inr (mem_ibMentions (dlookup_mem hcur) x h1)
    · exact Or.inr h

/-- C10: `get_transitive_dependents` always returns a superset of its
starting set — every starting module is in the result, whether or not it is
a node of the graph (the function is total on arbitrary graphs and
starting sets, so absent modules and dangling `imported_by` entries never
make it fail). -/
theorem C10_transitive_dependents_superset (graph : Dict GraphModule)
    (modules : List String) (x : String) (hx : x ∈ modules) :
    x ∈ get_transitive_dependents graph modules := by
  unfold get_transitive_dependents
  exact bfsAux_superset graph modules modules modules x hx

/-- Witness for C10: a starting module that is not a node of the (empty)
graph still appears in the closure. -/
theorem C10_witness : "q" ∈ get_transitive_dependents [] ["q"] :=
  C10_transitive_dependents_superset [] ["q"] "q" (by decide)

/-- C4: on the spec's example graph, the closure of `{a}` is `{a,b,c}`,
the closure of `{d}` is `{d,a,b,c}`, and `e` (which no `imported_by` edge
reaches) is only ever in the result when it is in the starting set. -/
theorem C4_transitive_closure :
    sortedDedup (get_transitive_dependents
      [("a", ⟨[], "", ["b"], []⟩), ("b", ⟨[], "", ["c"], []⟩),
       ("c", ⟨[], "", [], []⟩), ("d", ⟨[], "", ["a"], []⟩),
       ("e", ⟨[], "", [], []⟩)] ["a"]) = ["a", "b", "c"] ∧
    sortedDedup (get_transitive_dependents
      [("a", ⟨[], "", ["b"], []⟩), ("b", ⟨[], "", ["c"], []⟩),
       ("c", ⟨[], "", [], []⟩), ("d", ⟨[], "", ["a"], []⟩),
       ("e", ⟨[], "", [], []⟩)] ["d"]) = ["a", "b", "c", "d"] ∧
    (∀ S : List String, "e" ∈ get_transitive_dependents
      [("a", ⟨[], "", ["b"], []⟩), ("b", ⟨[], "", ["c"], []⟩),
       ("c", ⟨[], "", [], []⟩), ("d", ⟨[], "", ["a"], []⟩),
       ("e", ⟨[], "", [], []⟩)] S → "e" ∈ S) := by
  refine ⟨?_, ?_, ?_⟩
  · simp [get_transitive_dependents, bfsAux, bfsVisit, dlookup, sortedDedup,
      pyDedup, pyDedup.go, pySort, insertSorted, pyLe, charListLe]
  · simp [get_transitive_dependents, bfsAux, bfsVisit, dlookup, sortedDedup,
      pyDedup, pyDedup.go, pySort, insertSorted, pyLe, charListLe]
  · intro S hS
    unfold get_transitive_dependents at hS
    rcases bfsAux_src _ S S S "e" hS with h | h
    · exact h
    · exact absurd h (by decide)

/-- Witness for C4's quantified conjunct: `e` in the starting set. -/
theorem C4_witness : "e" ∈ ["e"] :=
  C4_transitive_closure.2.2 ["e"]
    (by simp [get_transitive_dependents, bfsAux, bfsVisit, dlookup])

/-! ### Inversion lemmas and C1 -/

theorem dlookup_appendImportedBy (g : Dict GraphModule) (dep a x : String) :
    dlookup (appendImportedBy g dep a) x =
      if dep = x then
        (dlookup g x).map (fun gm => { gm with imported_by := gm.imported_by ++ [a] })
      else dlookup g x := by
  induction g with
  | nil =>
    simp only [appendImportedBy, List.map_nil, dlookup]
    by_cases hdx : dep = x <;> simp [hdx]
  | cons p rest ih =>
    obtain ⟨k₀, gm₀⟩ := p
    simp only [appendImportedBy, List.map_cons] at ih ⊢
    by_cases hk : k₀ = dep
    · rw [if_pos (show (k₀, gm₀).1 = dep from hk)]
      by_cases hdx : dep = x
      · subst hdx
        subst hk
        simp [dlookup]
      · rw [if_neg hdx] at ih ⊢
        simp only [dlookup]
        rw [if_neg (show ¬k₀ = x from fun he => hdx (hk ▸ he)),
            if_neg (show ¬k₀ = x from fun he => hdx (hk ▸ he))]
        rw [← ih]
    · rw [if_neg (show ¬(k₀, gm₀).1 = dep from hk)]
      by_cases hkx : k₀ = x
      · have hdxne : ¬dep = x := fun he => hk (hkx.trans he.symm)
        rw [if_neg hdxne]
        simp only [dlookup]
        rw [if_pos hkx, if_pos hkx]
      · simp only [dlookup]
        rw [if_neg hkx, if_neg hkx]
        by_cases hdx : dep = x
        · rw [if_pos hdx] at ih ⊢
          exact ih
        · rw [if_neg hdx] at ih ⊢
          exact ih

theorem dlookup_invertInner (m : Dict ModuleData) (A : String) :
    ∀ (imports : List String) (g : Dict GraphModule) (x : String),
      dlookup (imports.foldl
        (fun g dep => if (dlookup m dep).isSome then appendImportedBy g dep A else g) g) x =
        if (dlookup m x).isSome = true then
          (dlookup g x).map (fun gm =>
            { gm with imported_by :=
                gm.imported_by ++ (imports.filter (fun dep => dep == x)).map (fun _ => A) })
        else dlookup g x := by
  intro imports
  induction imports with
  | nil =>
    intro g x
    simp only [List.foldl_nil, List.filter_nil, List.map_nil]
    by_cases hx : (dlookup m x).isSome = true
    · rw [if_pos hx]
      cases dlookup g x <;> simp
    · rw [if_neg hx]
  | cons dep imps ih =>
    intro g x
    simp only [List.foldl_cons, List.filter_cons]
    by_cases hdep : (dlookup m dep).isSome = true
    · rw [if_pos hdep]
      rw [ih (appendImportedBy g dep A) x]
      by_cases hx : (dlookup m x).isSome = true
      · rw [if_pos hx, if_pos hx]
        rw [dlookup_appendImportedBy]
        by_cases hdx : dep = x
        · rw [if_pos hdx]
          have hb : (dep == x) = true := by simp [hdx]
          simp only [hb, if_true]
          cases dlookup g x with
          | none => simp
          | some gm => simp
        · rw [if_neg hdx]
          have hb : (dep == x) = false := by simp [hdx]
          simp only [hb, Bool.false_eq_true, if_false]
      · rw [if_neg hx, if_neg hx]
        rw [dlookup_appendImportedBy]
        have hdx : ¬dep = x := by
          intro he
          rw [he] at hdep
          exact absurd hdep hx
        rw [if_neg hdx]
    · rw [if_neg hdep]
      rw [ih g x]
      by_cases hx : (dlookup m x).isSome = true
      · rw [if_pos hx, if_pos hx]
        have hdx : ¬dep = x := by
          intro he
          rw [he] at hdep
          exact absurd hx hdep
        have hb : (dep == x) = false := by simp [hdx]
        simp only [hb, Bool.false_eq_true, if_false]
      · rw [if_neg hx, if_neg hx]

theorem dlookup_invertOuter (m : Dict ModuleData) :
    ∀ (ms : List (String × ModuleData)) (g : Dict GraphModule) (x : String),
      dlookup (ms.foldl
        (fun g p => p.2.imports.foldl
          (fun g dep => if (dlookup m dep).isSome then appendImportedBy g dep p.1 else g) g)
        g) x =
        if (dlookup m x).isSome = true then
          (dlookup g x).map (fun gm =>
            { gm with imported_by := gm.imported_by ++ ibContrib ms x })
        else dlookup g x := by
  intro ms
  induction ms with
  | nil =>
    intro g x
    simp only [List.foldl_nil, ibContrib, List.foldr_nil]
    by_cases hx : (dlookup m x).isSome = true
    · rw [if_pos hx]
      cases dlookup g x <;> simp
    · rw [if_neg hx]
  | cons p ms ih =>
    intro g x
    simp only [List.foldl_cons]
    rw [ih]
    by_cases hx : (dlookup m x).isSome = true
    · rw [if_pos hx, if_pos hx]
      rw [dlookup_invertInner m p.1 p.2.imports g x, if_pos hx]
      have hcontrib : ibContrib (p :: ms) x =
          (p.2.imports.filter (fun dep => dep == x)).map (fun _ => p.1) ++ ibContrib ms x := by
        simp [ibContrib]
      rw [hcontrib]
      cases dlookup g x with
      | none => simp
      | some gm => simp
    · rw [if_neg hx, if_neg hx]
      rw [dlookup_invertInner m p.1 p.2.imports g x, if_neg hx]

theorem dlookup_invertInit (m : Dict ModuleData) (x : String) :
    dlookup (m.map (fun p => (p.1, (⟨p.2.imports, p.2.file, [], []⟩ : GraphModule)))) x =
      (dlookup m x).map (fun d => (⟨d.imports, d.file, [], []⟩ : GraphModule)) := by
  induction m with
  | nil => simp [dlookup]
  | cons p rest ih =>
    obtain ⟨k₀, d₀⟩ := p
    simp only [List.map_cons, dlookup]
    by_cases hk : k₀ = x
    · rw [if_pos hk, if_pos hk]
      rfl
    · rw [if_neg hk, if_neg hk]
      exact ih

theorem dlookup_invertGraph (m : Dict ModuleData) (x : String) :
    dlookup (invertGraph m) x =
      (dlookup m x).map (fun d => (⟨d.imports, d.file, ibContrib m x, []⟩ : GraphModule)) := by
  unfold invertGraph
  rw [dlookup_invertOuter m m _ x]
  by_cases hx : (dlookup m x).isSome = true
  · rw [if_pos hx, dlookup_invertInit]
    cases hlk : dlookup m x with
    | none => rw [hlk] at hx; simp at hx
    | some d => simp
  · rw [if_neg hx, dlookup_invertInit]
    cases hlk : dlookup m x with
    | none => simp
    | some d => rw [hlk] at hx; simp at hx

theorem mem_ibContrib (ms : Dict ModuleData) (A x : String) :
    A ∈ ibContrib ms x ↔ ∃ d : ModuleData, (A, d) ∈ ms ∧ x ∈ d.imports := by
  induction ms with
  | nil => simp [ibContrib]
  | cons p rest ih =>
    have hcontrib : ibContrib (p :: rest) x =
        (p.2.imports.filter (fun dep => dep == x)).map (fun _ => p.1) ++ ibContrib rest x := by
      simp [ibContrib]
    rw [hcontrib]
    constructor
    · intro h
      rcases List.mem_append.1 h with h1 | h1
      · obtain ⟨dep, hdep, hA⟩ := List.mem_map.1 h1
        have hdx : dep = x := by
          have := List.of_mem_filter hdep
          simpa using this
        refine ⟨p.2, List.mem_cons.2 (Or.inl ?_), ?_⟩
        · rw [← hA]
        · rw [← hdx]
          exact List.mem_of_mem_filter hdep
      · obtain ⟨d, hd, hx⟩ := ih.1 h1
        exact ⟨d, List.mem_cons_of_mem _ hd, hx⟩
    · rintro ⟨d, hd, hx⟩
      rcases List.mem_cons.1 hd with h1 | h1
      · apply List.mem_append_left
        apply List.mem_map.2
        refine ⟨x, ?_, ?_⟩
        · apply List.mem_filter.2
          refine ⟨?_, by simp⟩
          have : p.2 = d := congrArg Prod.snd h1.symm
          rw [this]
          exact hx
        · exact (congrArg Prod.fst h1.symm).symm ▸ rfl
      · exact List.mem_append_right _ (ih.2 ⟨d, h1, hx⟩)

theorem seqStep_keys_nodup (valid : List String) (m : Dict ModuleData) (f : SrcFile)
    (h : (dkeys m).Nodup) : (dkeys (seqStep valid m f)).Nodup := by
  simp only [seqStep]
  split
  · exact h
  · exact dkeys_dinsert_nodup _ _ _ h

theorem parse_files_sequential_keys_nodup (files : List SrcFile) (valid : List String) :
    (dkeys (parse_files_sequential files valid)).Nodup := by
  unfold parse_files_sequential
  have hgen : ∀ (fs : List SrcFile) (m : Dict ModuleData), (dkeys m).Nodup →
      (dkeys (fs.foldl (seqStep valid) m)).Nodup := by
    intro fs
    induction fs with
    | nil => intro m h; exact h
    | cons f fs ih =>
      intro m h
      exact ih _ (seqStep_keys_nodup valid m f h)
  exact hgen files [] (by simp [dkeys])

theorem incrementalStep_keys_nodup (valid : List String) (changed : Option (List String))
    (now : Nat) (acc : Dict ModuleData × Dict CacheEntry) (f : SrcFile)
    (h : (dkeys acc.1).Nodup) :
    (dkeys (incrementalStep valid changed now acc f).1).Nodup := by
  simp only [incrementalStep]
  split
  · exact dkeys_dinsert_nodup _ _ _ h
  · split
    · exact h
    · exact dkeys_dinsert_nodup _ _ _ h

theorem parse_files_incremental_keys_nodup (files : List SrcFile) (valid : List String)
    (cache : Dict CacheEntry) (changed : Option (List String)) (now : Nat) :
    (dkeys (parse_files_incremental files valid cache changed now).1).Nodup := by
  unfold parse_files_incremental
  have hgen : ∀ (fs : List SrcFile) (acc : Dict ModuleData × Dict CacheEntry),
      (dkeys acc.1).Nodup →
      (dkeys (fs.foldl (incrementalStep valid changed now) acc).1).Nodup := by
    intro fs
    induction fs with
    | nil => intro acc h; exact h
    | cons f fs ih =>
      intro acc h
      exact ih _ (incrementalStep_keys_nodup valid changed now acc f h)
  exact hgen files ([], cache) (by simp [dkeys])

/-- C1: in every graph returned by `scan_and_build_graph`, the
`imported_by` relation is the exact inverse of `imports`: whenever module
`A` lists `B` among its imports and `B` is a module of the graph, `A` is
in `B`'s `imported_by` list, and conversely every entry of a module's
`imported_by` list is a module of the graph whose imports contain it. -/
theorem C1_inversion_invariant
    (files : List SrcFile) (use_cache : Bool) (cache : Dict CacheEntry)
    (changed : Option (List String)) (now : Nat) (G : Dict GraphModule)
    (hG : G = scan_and_build_graph files use_cache cache changed now) :
    (∀ (A : String) (gmA : GraphModule), dlookup G A = some gmA →
      ∀ B ∈ gmA.imports, B ∈ dkeys G →
        ∃ gmB : GraphModule, dlookup G B = some gmB ∧ A ∈ gmB.imported_by) ∧
    (∀ (B : String) (gmB : GraphModule), dlookup G B = some gmB →
      ∀ A ∈ gmB.imported_by,
        ∃ gmA : GraphModule, dlookup G A = some gmA ∧ B ∈ gmA.imports) := by
  subst hG
  simp only [scan_and_build_graph]
  set valid := files.map (fun f => get_module_name f.relParts) with hvalid
  set mm := if use_cache then (parse_files_incremental files valid cache changed now).1
    else parse_files_sequential files valid with hmm
  have hnodup : (dkeys mm).Nodup := by
    rw [hmm]
    cases use_cache with
    | false => simpa using parse_files_sequential_keys_nodup files valid
    | true => simpa using parse_files_incremental_keys_nodup files valid cache changed now
  constructor
  · intro A gmA hA B hB hBkeys
    rw [dlookup_invertGraph] at hA
    cases hdA : dlookup mm A with
    | none => rw [hdA] at hA; simp at hA
    | some dA =>
      rw [hdA] at hA
      simp only [Option.map_some'] at hA
      rw [← dlookup_isSome_iff, dlookup_invertGraph] at hBkeys
      cases hdB : dlookup mm B with
      | none => rw [hdB] at hBkeys; simp at hBkeys
      | some dB =>
        refine ⟨⟨dB.imports, dB.file, ibContrib mm B, []⟩, ?_, ?_⟩
        · rw [dlookup_invertGraph, hdB]
          rfl
        · rw [mem_ibContrib]
          refine ⟨dA, dlookup_mem hdA, ?_⟩
          have hgm := Option.some.inj hA
          rw [← hgm] at hB
          exact hB
  · intro B gmB hB A hA
    rw [dlookup_invertGraph] at hB
    cases hdB : dlookup mm B with
    | none => rw [hdB] at hB; simp at hB
    | some dB =>
      rw [hdB] at hB
      simp only [Option.map_some'] at hB
      have hgm := Option.some.inj hB
      rw [← hgm] at hA
      obtain ⟨dA, hmemA, hBin⟩ := (mem_ibContrib mm A B).1 hA
      refine ⟨⟨dA.imports, dA.file, ibContrib mm A, []⟩, ?_, hBin⟩
      rw [dlookup_invertGraph, mem_dlookup hnodup hmemA]
      rfl


/-- Witness for C1 on a two-file project where `b` imports `a`. -/
theorem C1_witness :
    ∃ gmB : GraphModule,
      dlookup (scan_and_build_graph
        [⟨["a.py"], "src/a.py", .ok []⟩, ⟨["b.py"], "src/b.py", .ok [.importNames ["a"]]⟩]
        false [] none 0) "a" = some gmB ∧ "b" ∈ gmB.imported_by :=
  (C1_inversion_invariant
      [⟨["a.py"], "src/a.py", .ok []⟩, ⟨["b.py"], "src/b.py", .ok [.importNames ["a"]]⟩]
      false [] none 0 _ rfl).1
    "b" ⟨["a"], "src/b.py", [], []⟩ (by decide) "a" (by decide) (by decide)

/-! ### Incremental-parse lemmas, C2 and C3 -/

theorem changedAll_iff (changed : Option (List String)) (p : String) :
    changed.all (fun s => !s.contains p) = true ↔ ∀ s, changed = some s → p ∉ s := by
  cases changed with
  | none => simp [Option.all]
  | some s => simp [Option.all]

theorem incrementalStep_hit (valid : List String) (changed : Option (List String))
    (now : Nat) (m : Dict ModuleData) (cache : Dict CacheEntry) (f : SrcFile)
    (e : CacheEntry)
    (hb : changed.all (fun s => !s.contains f.relPath) = true)
    (hlk : dlookup cache f.relPath = some e)
    (hh : e.hash = compute_file_hash f.content)
    (hn : e.module_name = get_module_name f.relParts) :
    incrementalStep valid changed now (m, cache) f =
      (dinsert m (get_module_name f.relParts) ⟨e.imports, f.relPath⟩, cache) := by
  simp only [incrementalStep, hb, hlk, if_true]
  rw [if_pos ⟨hh, hn⟩]

theorem incrementalStep_miss (valid : List String) (changed : Option (List String))
    (now : Nat) (m : Dict ModuleData) (cache : Dict CacheEntry) (f : SrcFile)
    (hmiss : ¬∃ e : CacheEntry,
      changed.all (fun s => !s.contains f.relPath) = true ∧
      dlookup cache f.relPath = some e ∧
      e.hash = compute_file_hash f.content ∧
      e.module_name = get_module_name f.relParts) :
    incrementalStep valid changed now (m, cache) f =
      match parseResolve valid (get_module_name f.relParts) f.content with
      | none => (m, cache)
      | some resolved =>
        (dinsert m (get_module_name f.relParts) ⟨resolved, f.relPath⟩,
         dinsert cache f.relPath
           ⟨compute_file_hash f.content, get_module_name f.relParts, resolved, now⟩) := by
  simp only [incrementalStep]
  by_cases hb : changed.all (fun s => !s.contains f.relPath) = true
  · simp only [hb, if_true]
    cases hlk : dlookup cache f.relPath with
    | none => rfl
    | some e =>
      by_cases hcond : e.hash = compute_file_hash f.content ∧
          e.module_name = get_module_name f.relParts
      · exact absurd ⟨e, hb, hlk, hcond.1, hcond.2⟩ hmiss
      · simp only [if_neg hcond]
  · simp only [Bool.not_eq_true] at hb
    simp only [hb, Bool.false_eq_true, if_false]

/-- C2 counterexample: a changed file whose text has a syntax error is
re-parsed, but no fresh cache entry is written (and no module entry is
produced) — the loop `continue`s instead, so the claim's "a fresh cache
entry ... is written" fails. -/
theorem C2_counterexample :
    ("src/x.py" : String) ∈ ["src/x.py"] ∧
    (incrementalStep [] (some ["src/x.py"]) 7 ([], [])
      ⟨["x.py"], "src/x.py", .bad⟩).2 = [] ∧
    (incrementalStep [] (some ["src/x.py"]) 7 ([], [])
      ⟨["x.py"], "src/x.py", .bad⟩).1 = [] := by
  decide

/-- C2 (amended): a cached entry's import list is reused only when the
file is not in the supplied changed set, the stored hash equals the
current content hash and the stored module name equals the computed one;
when any of these fails the file is re-parsed and, if parsing succeeds, a
fresh entry with the current hash, module name, import list and timestamp
is written — a file whose re-parse hits a syntax error writes no entry
and contributes no module. -/
theorem C2_incremental_cache_entry_reuse
    (valid : List String) (changed : Option (List String)) (now : Nat)
    (m : Dict ModuleData) (cache : Dict CacheEntry) (f : SrcFile) :
    (∀ e : CacheEntry,
      (∀ s, changed = some s → f.relPath ∉ s) →
      dlookup cache f.relPath = some e →
      e.hash = compute_file_hash f.content →
      e.module_name = get_module_name f.relParts →
      incrementalStep valid changed now (m, cache) f =
        (dinsert m (get_module_name f.relParts) ⟨e.imports, f.relPath⟩, cache)) ∧
    (¬(∃ e : CacheEntry, (∀ s, changed = some s → f.relPath ∉ s) ∧
        dlookup cache f.relPath = some e ∧
        e.hash = compute_file_hash f.content ∧
        e.module_name = get_module_name f.relParts) →
      (∀ stmts, f.content = .ok stmts →
        incrementalStep valid changed now (m, cache) f =
          (dinsert m (get_module_name f.relParts)
            ⟨sortedDedup (resolveImports valid
                (stmts.foldl (visitStmt (get_module_name f.relParts)) [])), f.relPath⟩,
           dinsert cache f.relPath
            ⟨compute_file_hash f.content, get_module_name f.relParts,
             sortedDedup (resolveImports valid
                (stmts.foldl (visitStmt (get_module_name f.relParts)) [])), now⟩)) ∧
      (f.content = .bad →
        incrementalStep valid changed now (m, cache) f = (m, cache))) := by
  constructor
  · intro e hchg hlk hh hn
    exact incrementalStep_hit valid changed now m cache f e
      ((changedAll_iff changed f.relPath).2 hchg) hlk hh hn
  · intro hmiss
    have hmiss' : ¬∃ e : CacheEntry,
        changed.all (fun s => !s.contains f.relPath) = true ∧
        dlookup cache f.relPath = some e ∧
        e.hash = compute_file_hash f.content ∧
        e.module_name = get_module_name f.relParts := by
      rintro ⟨e, hb, hlk, hh, hn⟩
      exact hmiss ⟨e, (changedAll_iff changed f.relPath).1 hb, hlk, hh, hn⟩
    constructor
    · intro stmts hok
      rw [incrementalStep_miss valid changed now m cache f hmiss', hok]
      rfl
    · intro hbad
      rw [incrementalStep_miss valid changed now m cache f hmiss', hbad]
      rfl

/-- Witness for C2: a cache hit on an unchanged, matching entry reuses
the stored import list and leaves the cache untouched. -/
theorem C2_witness :
    incrementalStep ["m"] none 5
      ([], [("src/m.py", ⟨.ok [], "m", ["x"], 0⟩)]) ⟨["m.py"], "src/m.py", .ok []⟩ =
      (dinsert [] (get_module_name ["m.py"]) ⟨["x"], "src/m.py"⟩,
       [("src/m.py", ⟨.ok [], "m", ["x"], 0⟩)]) :=
  (C2_incremental_cache_entry_reuse ["m"] none 5 []
      [("src/m.py", ⟨.ok [], "m", ["x"], 0⟩)] ⟨["m.py"], "src/m.py", .ok []⟩).1
    ⟨.ok [], "m", ["x"], 0⟩ (fun s hs => by simp at hs) (by decide) (by decide) (by decide)

theorem parse_incremental_eq_sequential_aux (valid : List String)
    (changed : Option (List String)) (now : Nat) :
    ∀ (fs : List SrcFile) (m : Dict ModuleData) (c : Dict CacheEntry),
      (fs.map (fun f => f.relPath)).Nodup →
      (∀ f ∈ fs, ∀ e : CacheEntry, dlookup c f.relPath = some e →
        e.hash = compute_file_hash f.content →
        e.module_name = get_module_name f.relParts →
        parseResolve valid (get_module_name f.relParts) f.content = some e.imports) →
      (fs.foldl (incrementalStep valid changed now) (m, c)).1 =
        fs.foldl (seqStep valid) m := by
  intro fs
  induction fs with
  | nil => intro m c _ _; rfl
  | cons f fs ih =>
    intro m c hnd hfaith
    simp only [List.foldl_cons]
    simp only [List.map_cons, List.nodup_cons] at hnd
    by_cases hhit : ∃ e : CacheEntry,
        changed.all (fun s => !s.contains f.relPath) = true ∧
        dlookup c f.relPath = some e ∧
        e.hash = compute_file_hash f.content ∧
        e.module_name = get_module_name f.relParts
    · obtain ⟨e, hb, hlk, hh, hn⟩ := hhit
      rw [incrementalStep_hit valid changed now m c f e hb hlk hh hn]
      have hpr := hfaith f (List.mem_cons_self _ _) e hlk hh hn
      have hseq : seqStep valid m f =
          dinsert m (get_module_name f.relParts) ⟨e.imports, f.relPath⟩ := by
        simp only [seqStep, hpr]
      rw [hseq]
      exact ih _ c hnd.2 (fun g hg => hfaith g (List.mem_cons_of_mem _ hg))
    · rw [incrementalStep_miss valid changed now m c f hhit]
      cases hpr : parseResolve valid (get_module_name f.relParts) f.content with
      | none =>
        have hseq : seqStep valid m f = m := by simp only [seqStep, hpr]
        rw [hseq]
        exact ih m c hnd.2 (fun g hg => hfaith g (List.mem_cons_of_mem _ hg))
      | some resolved =>
        have hseq : seqStep valid m f =
            dinsert m (get_module_name f.relParts) ⟨resolved, f.relPath⟩ := by
          simp only [seqStep, hpr]
        rw [hseq]
        apply ih
        · exact hnd.2
        · intro g hg e' hlk' hh' hn'
          have hne : g.relPath ≠ f.relPath := by
            intro he
            exact hnd.1 (List.mem_map.2 ⟨g, hg, he⟩)
          rw [dlookup_dinsert_ne c f.relPath g.relPath _ hne] at hlk'
          exact hfaith g (List.mem_cons_of_mem _ hg) e' hlk' hh' hn'

/-- C3 counterexample: a cache entry that records the file's current
content hash and current module name but a different import list is
trusted by the incremental pass, so its module map differs from a
sequential re-parse — hash and module-name fidelity alone do not imply
the claim; the stored import list must also match. -/
theorem C3_counterexample :
    dlookup [("src/m.py", (⟨.ok [], "m", ["bogus"], 0⟩ : CacheEntry))] "src/m.py" =
      some ⟨.ok [], "m", ["bogus"], 0⟩ ∧
    (⟨.ok [], "m", ["bogus"], 0⟩ : CacheEntry).hash =
      compute_file_hash (Content.ok []) ∧
    (⟨.ok [], "m", ["bogus"], 0⟩ : CacheEntry).module_name = get_module_name ["m.py"] ∧
    (parse_files_incremental [⟨["m.py"], "src/m.py", .ok []⟩] ["m"]
        [("src/m.py", ⟨.ok [], "m", ["bogus"], 0⟩)] none 0).1 ≠
      parse_files_sequential [⟨["m.py"], "src/m.py", .ok []⟩] ["m"] := by
  decide

/-- C3 (amended): for files with distinct repository-relative paths, if
every cache entry that matches a file's current content hash and current
module name stores exactly the import list a fresh parse-and-resolve of
that content produces (as every entry written by the cache-update path
does, hashes being collision-free), then the incremental pass returns
exactly the module map of a sequential parse from scratch, for every
changed-file set. -/
theorem C3_incremental_eq_sequential
    (files : List SrcFile) (valid : List String) (cache : Dict CacheEntry)
    (changed : Option (List String)) (now : Nat)
    (hpaths : (files.map (fun f => f.relPath)).Nodup)
    (hfaith : ∀ f ∈ files, ∀ e : CacheEntry, dlookup cache f.relPath = some e →
      e.hash = compute_file_hash f.content →
      e.module_name = get_module_name f.relParts →
      parseResolve valid (get_module_name f.relParts) f.content = some e.imports) :
    (parse_files_incremental files valid cache changed now).1 =
      parse_files_sequential files valid :=
  parse_incremental_eq_sequential_aux valid changed now files [] cache hpaths hfaith

/-- Witness for C3: one file with a faithful cache entry — the
incremental and sequential maps agree. -/
theorem C3_witness :
    (parse_files_incremental [⟨["m.py"], "src/m.py", .ok []⟩] ["m"]
        [("src/m.py", ⟨.ok [], "m", [], 3⟩)] none 0).1 =
      parse_files_sequential [⟨["m.py"], "src/m.py", .ok []⟩] ["m"] :=
  C3_incremental_eq_sequential [⟨["m.py"], "src/m.py", .ok []⟩] ["m"]
    [("src/m.py", ⟨.ok [], "m", [], 3⟩)] none 0 (by decide)
    (by
      intro f hf e hlk hh hn
      rw [List.mem_singleton] at hf
      subst hf
      have he : e = ⟨.ok [], "m", [], 3⟩ := by
        have hl : dlookup [("src/m.py", (⟨.ok [], "m", [], 3⟩ : CacheEntry))] "src/m.py" =
            some ⟨.ok [], "m", [], 3⟩ := by decide
        rw [hl] at hlk
        exact (Option.some.inj hlk).symm
      subst he
      decide)

/-! ### Robustness lemmas, C8 and C9 -/

theorem parses_iff (f : SrcFile) : f.parses = true ↔ f.content ≠ .bad := by
  cases hc : f.content <;> simp [SrcFile.parses, hc]

theorem parseResolve_eq_none_iff (valid : List String) (mn : String) (c : Content) :
    parseResolve valid mn c = none ↔ c = .bad := by
  cases c <;> simp [parseResolve]

theorem foldl_seqStep_filter (valid : List String) :
    ∀ (fs : List SrcFile) (m : Dict ModuleData),
      fs.foldl (seqStep valid) m =
        (fs.filter (fun g => g.parses)).foldl (seqStep valid) m := by
  intro fs
  induction fs with
  | nil => intro m; rfl
  | cons f fs ih =>
    intro m
    simp only [List.foldl_cons, List.filter_cons]
    cases hp : f.parses with
    | true =>
      simp only [if_true, List.foldl_cons]
      exact ih _
    | false =>
      have hbad : f.content = .bad := by
        cases hc : f.content with
        | ok stmts => simp [SrcFile.parses, hc] at hp
        | bad => rfl
      have hstep : seqStep valid m f = m := by
        simp only [seqStep, (parseResolve_eq_none_iff valid _ _).2 hbad]
      simp only [Bool.false_eq_true, if_false, hstep]
      exact ih m

theorem mem_dkeys_foldl_seq (valid : List String) :
    ∀ (fs : List SrcFile) (m : Dict ModuleData) (k : String),
      k ∈ dkeys (fs.foldl (seqStep valid) m) ↔
        k ∈ dkeys m ∨ ∃ g ∈ fs, g.parses = true ∧ get_module_name g.relParts = k := by
  intro fs
  induction fs with
  | nil => intro m k; simp
  | cons f fs ih =>
    intro m k
    simp only [List.foldl_cons]
    cases hpr : parseResolve valid (get_module_name f.relParts) f.content with
    | none =>
      have hbad : f.content = .bad := (parseResolve_eq_none_iff valid _ _).1 hpr
      have hp : f.parses = false := by simp [SrcFile.parses, hbad]
      have hstep : seqStep valid m f = m := by simp only [seqStep, hpr]
      rw [hstep, ih]
      constructor
      · rintro (h | ⟨g, hg, hgp, hgk⟩)
        · exact Or.inl h
        · exact Or.inr ⟨g, List.mem_cons_of_mem _ hg, hgp, hgk⟩
      · rintro (h | ⟨g, hg, hgp, hgk⟩)
        · exact Or.inl h
        · rcases List.mem_cons.1 hg with h1 | h1
          · subst h1
            rw [hp] at hgp
            simp at hgp
          · exact Or.inr ⟨g, h1, hgp, hgk⟩
    | some imps =>
      have hok : f.content ≠ .bad := by
        intro hbad
        rw [(parseResolve_eq_none_iff valid _ _).2 hbad] at hpr
        simp at hpr
      have hp : f.parses = true := (parses_iff f).2 hok
      have hstep : seqStep valid m f =
          dinsert m (get_module_name f.relParts) ⟨imps, f.relPath⟩ := by
        simp only [seqStep, hpr]
      rw [hstep, ih]
      rw [mem_dkeys_dinsert]
      constructor
      · rintro ((h | h) | ⟨g, hg, hgp, hgk⟩)
        · exact Or.inl h
        · exact Or.inr ⟨f, List.mem_cons_self _ _, hp, h.symm⟩
        · exact Or.inr ⟨g, List.mem_cons_of_mem _ hg, hgp, hgk⟩
      · rintro (h | ⟨g, hg, hgp, hgk⟩)
        · exact Or.inl (Or.inl h)
        · rcases List.mem_cons.1 hg with h1 | h1
          · subst h1
            exact Or.inl (Or.inr hgk.symm)
          · exact Or.inr ⟨g, h1, hgp, hgk⟩

theorem mem_dkeys_invertGraph (m : Dict ModuleData) (k : String) :
    k ∈ dkeys (invertGraph m) ↔ k ∈ dkeys m := by
  rw [← dlookup_isSome_iff, ← dlookup_isSome_iff, dlookup_invertGraph]
  cases dlookup m k <;> simp

/-- C8: a file whose text raises `SyntaxError` never aborts the build:
the sequential scan returns the graph of the parsable files alone (with
the full module universe), every other file's module is a node of the
returned graph, and — when no parsable file shares its module name — the
broken file contributes no node and no import edge (it appears in no
`imported_by` list). -/
theorem C8_syntax_error_robustness
    (files : List SrcFile) (cache : Dict CacheEntry) (changed : Option (List String))
    (now : Nat) (f : SrcFile) (hf : f ∈ files) (hbad : f.content = .bad) :
    (∀ g ∈ files, g.content ≠ .bad →
      get_module_name g.relParts ∈
        dkeys (scan_and_build_graph files false cache changed now)) ∧
    scan_and_build_graph files false cache changed now =
      invertGraph (parse_files_sequential (files.filter (fun g => g.parses))
        (files.map (fun g => get_module_name g.relParts))) ∧
    ((∀ g ∈ files, g.content ≠ .bad →
        get_module_name g.relParts ≠ get_module_name f.relParts) →
      dlookup (scan_and_build_graph files false cache changed now)
          (get_module_name f.relParts) = none ∧
      ∀ B gm,
        dlookup (scan_and_build_graph files false cache changed now) B = some gm →
        get_module_name f.relParts ∉ gm.imported_by) := by
  have hscan : scan_and_build_graph files false cache changed now =
      invertGraph (parse_files_sequential files
        (files.map (fun g => get_module_name g.relParts))) := by
    simp [scan_and_build_graph]
  have hnotkey : (∀ g ∈ files, g.content ≠ .bad →
      get_module_name g.relParts ≠ get_module_name f.relParts) →
      get_module_name f.relParts ∉
        dkeys (parse_files_sequential files
          (files.map (fun g => get_module_name g.relParts))) := by
    intro hname hmem
    rw [parse_files_sequential, mem_dkeys_foldl_seq] at hmem
    rcases hmem with h | ⟨g, hg, hgp, hgk⟩
    · simp [dkeys] at h
    · exact hname g hg ((parses_iff g).1 hgp) hgk
  refine ⟨?_, ?_, ?_⟩
  · intro g hg hok
    rw [hscan, mem_dkeys_invertGraph]
    rw [parse_files_sequential, mem_dkeys_foldl_seq]
    exact Or.inr ⟨g, hg, (parses_iff g).2 hok, rfl⟩
  · rw [hscan]
    rw [parse_files_sequential, parse_files_sequential, foldl_seqStep_filter]
  · intro hname
    have hnk := hnotkey hname
    constructor
    · rw [hscan, dlookup_invertGraph]
      rw [(dlookup_eq_none _ _).2 hnk]
      rfl
    · intro B gm hB hmem
      rw [hscan, dlookup_invertGraph] at hB
      cases hdB : dlookup (parse_files_sequential files
          (files.map (fun g => get_module_name g.relParts))) B with
      | none => rw [hdB] at hB; simp at hB
      | some dB =>
        rw [hdB] at hB
        simp only [Option.map_some'] at hB
        have hgm := Option.some.inj hB
        rw [← hgm] at hmem
        obtain ⟨dA, hdA, _⟩ := (mem_ibContrib _ _ _).1 hmem
        exact hnk (List.mem_map.2 ⟨_, hdA, rfl⟩)

/-- Witness for C8: a two-file project whose second file is broken. -/
theorem C8_witness :
    get_module_name ["a.py"] ∈
      dkeys (scan_and_build_graph
        [⟨["a.py"], "src/a.py", .ok []⟩, ⟨["b.py"], "src/b.py", .bad⟩]
        false [] none 0) ∧
    dlookup (scan_and_build_graph
        [⟨["a.py"], "src/a.py", .ok []⟩, ⟨["b.py"], "src/b.py", .bad⟩]
        false [] none 0) (get_module_name ["b.py"]) = none :=
  ⟨(C8_syntax_error_robustness [⟨["a.py"], "src/a.py", .ok []⟩, ⟨["b.py"], "src/b.py", .bad⟩]
      [] none 0 ⟨["b.py"], "src/b.py", .bad⟩ (by decide) rfl).1
    ⟨["a.py"], "src/a.py", .ok []⟩ (by decide) (by decide),
   ((C8_syntax_error_robustness [⟨["a.py"], "src/a.py", .ok []⟩, ⟨["b.py"], "src/b.py", .bad⟩]
      [] none 0 ⟨["b.py"], "src/b.py", .bad⟩ (by decide) rfl).2.2 (by decide)).1⟩

/-- C9: the affected-set resolution is total and degrades per item: an
empty changed-file list yields empty affected-module and test lists, and
a changed file that is not a `.py` path under the source or test trees,
or whose derived module name is not a node of the graph, contributes
nothing — the result is the same list-for-list as if it had not been in
the changed set at all, wherever it occurs. -/
theorem C9_affected_resolution_degrades :
    (∀ (graphFile : Option (Dict GraphModule)) (fsExists : String → Bool),
      get_affected_tests graphFile fsExists [] = ([], [])) ∧
    (∀ (graph : Dict GraphModule) (fsExists : String → Bool) (junk : String),
      (((pyContains "src/" junk && pyEndsWith ".py" junk) = false ∧
        (pyContains "tests/" junk && pyEndsWith ".py" junk) = false) ∨
       ((pyContains "src/" junk && pyEndsWith ".py" junk) = true ∧
        ∀ mn, derivedSrcModule fsExists junk = some mn → mn ∉ dkeys graph)) →
      ∀ pre post : List String,
        get_affected_tests (some graph) fsExists (pre ++ junk :: post) =
          get_affected_tests (some graph) fsExists (pre ++ post)) := by
  constructor
  · intro graphFile fsExists
    cases graphFile with
    | none => rfl
    | some graph =>
      simp only [get_affected_tests, List.foldl_nil, get_transitive_dependents]
      rw [bfsAux]
      rfl
  · intro graph fsExists junk hjunk pre post
    have hcontrib : processChangedFile (dkeys graph) fsExists junk = ([], []) := by
      rcases hjunk with ⟨h1, h2⟩ | ⟨h1, hnm⟩
      · simp only [processChangedFile, h1, Bool.false_eq_true, if_false, h2]
      · simp only [processChangedFile, h1, if_true]
        cases hd : derivedSrcModule fsExists junk with
        | none => rfl
        | some mn =>
          simp [hnm mn hd]
    simp only [get_affected_tests]
    have hfold : ∀ (l1 l2 : List String)
        (acc : List String × List String),
        (l1 ++ junk :: l2).foldl
          (fun acc p =>
            (acc.1 ++ (processChangedFile (dkeys graph) fsExists p).1,
             acc.2 ++ (processChangedFile (dkeys graph) fsExists p).2)) acc =
        (l1 ++ l2).foldl
          (fun acc p =>
            (acc.1 ++ (processChangedFile (dkeys graph) fsExists p).1,
             acc.2 ++ (processChangedFile (dkeys graph) fsExists p).2)) acc := by
      intro l1 l2 acc
      rw [List.foldl_append, List.foldl_append, List.foldl_cons, hcontrib]
      simp
    rw [hfold]

/-- Witness for C9: a non-Python changed file contributes nothing. -/
theorem C9_witness :
    get_affected_tests (some [("a", ⟨[], "src/a.py", [], []⟩)]) (fun _ => false)
        ([] ++ "README.md" :: []) =
      get_affected_tests (some [("a", ⟨[], "src/a.py", [], []⟩)]) (fun _ => false)
        ([] ++ []) :=
  C9_affected_resolution_degrades.2 [("a", ⟨[], "src/a.py", [], []⟩)] (fun _ => false) "README.md"
    (Or.inl ⟨by decide, by decide⟩) [] []
